import Mathlib

set_option maxHeartbeats 1000000
set_option maxRecDepth 2000

/-! Verification of the codex-trace log pipeline.

The program under study is a single Python script that wraps a traced
subprocess, interprets its diagnostic stderr stream, reduces successive
JSON POST payloads to deltas, renders them as controlled "Render" trees
and appends them as JSONL lines inside a never-closed HTML comment.

This file gives a shallow embedding of the pure core of that script:

* `Json` models Python JSON values as produced by `json.loads`.
  Numbers are modelled as integers (the payloads the tool handles are
  integral counters and strings; float/int conflation and Python's
  `True == 1` quirk are outside the scope of the claims checked here).
  A Python `dict` is represented as an association list of entries in
  insertion order; `None` is modelled as `Json.null`.
* `calculate_json_delta` embeds the delta engine.  Python exceptions
  are modelled by `Option`: a result of `none` means the call raises
  (the engine can raise `IndexError` through `subdelta[0]`).
* the renderers and the per-line classifier step are embedded further
  below, with `json.loads` and `datetime.now()` (stdlib collaborators)
  abstracted as parameters.
-/

inductive Json where
  | null : Json
  | bool : Bool → Json
  | num : Int → Json
  | str : String → Json
  | arr : List Json → Json
  | obj : List (String × Json) → Json

mutual

/-- Structural equality of JSON values, Python's `==` for the cases the
delta engine reaches it on (values of distinct container kinds, or two
scalars). -/
def jsonBeq : Json → Json → Bool
  | Json.null, Json.null => true
  | Json.bool a, Json.bool b => a == b
  | Json.num a, Json.num b => a == b
  | Json.str a, Json.str b => a == b
  | Json.arr a, Json.arr b => jsonBeqList a b
  | Json.obj a, Json.obj b => jsonBeqEntries a b
  | _, _ => false
termination_by a _ => sizeOf a

def jsonBeqList : List Json → List Json → Bool
  | [], [] => true
  | a :: as, b :: bs => jsonBeq a b && jsonBeqList as bs
  | _, _ => false
termination_by as _ => sizeOf as

def jsonBeqEntries : List (String × Json) → List (String × Json) → Bool
  | [], [] => true
  | a :: as, b :: bs => (a.1 == b.1) && jsonBeq a.2 b.2 && jsonBeqEntries as bs
  | _, _ => false
termination_by as _ => sizeOf as
decreasing_by
all_goals
  simp_wf
  try omega
all_goals
  obtain ⟨k1, v1⟩ := a
  simp
  omega

end

/-- Strong induction principle for `Json` (nested through lists). -/
theorem jsonInd (P : Json → Prop)
    (hnull : P Json.null) (hbool : ∀ b, P (Json.bool b))
    (hnum : ∀ n, P (Json.num n)) (hstr : ∀ s, P (Json.str s))
    (harr : ∀ l, (∀ x ∈ l, P x) → P (Json.arr l))
    (hobj : ∀ l, (∀ kv ∈ l, P kv.2) → P (Json.obj l)) : ∀ j, P j := by
  suffices H : ∀ (n : Nat), ∀ j, sizeOf j = n → P j from fun j => H _ j rfl
  intro n
  induction n using Nat.strong_induction_on with
  | _ n ih =>
    intro j hj
    cases j with
    | null => exact hnull
    | bool b => exact hbool b
    | num m => exact hnum m
    | str s => exact hstr s
    | arr l =>
      refine harr l (fun x hx => ih (sizeOf x) ?_ x rfl)
      have hlt := List.sizeOf_lt_of_mem hx
      subst hj
      simp only [Json.arr.sizeOf_spec]
      omega
    | obj l =>
      refine hobj l (fun kv hkv => ih (sizeOf kv.2) ?_ kv.2 rfl)
      have hlt := List.sizeOf_lt_of_mem hkv
      subst hj
      obtain ⟨k, v⟩ := kv
      simp only [Json.obj.sizeOf_spec, Prod.mk.sizeOf_spec] at hlt ⊢
      omega

theorem jsonBeq_iff : ∀ a b, jsonBeq a b = true ↔ a = b := by
  intro a
  induction a using jsonInd with
  | hnull => intro b; cases b <;> simp [jsonBeq.eq_def]
  | hbool x => intro b; cases b <;> simp [jsonBeq.eq_def]
  | hnum x => intro b; cases b <;> simp [jsonBeq.eq_def]
  | hstr x => intro b; cases b <;> simp [jsonBeq.eq_def]
  | harr l ih =>
    intro b
    cases b <;> simp [jsonBeq.eq_def]
    case arr bl =>
      induction l generalizing bl with
      | nil => cases bl <;> simp [jsonBeqList.eq_def]
      | cons x xs ihl =>
        cases bl with
        | nil => simp [jsonBeqList.eq_def]
        | cons y ys =>
          have hx : ∀ c, jsonBeq x c = true ↔ x = c := ih x (by simp)
          have hxs := ihl (fun z hz => ih z (by simp [hz]))
          rw [jsonBeqList.eq_def]
          simp [hx, hxs]
  | hobj l ih =>
    intro b
    cases b <;> simp [jsonBeq.eq_def]
    case obj bl =>
      induction l generalizing bl with
      | nil => cases bl <;> simp [jsonBeqEntries.eq_def]
      | cons x xs ihl =>
        cases bl with
        | nil => simp [jsonBeqEntries.eq_def]
        | cons y ys =>
          have hx : ∀ c, jsonBeq x.2 c = true ↔ x.2 = c := ih x (by simp)
          have hxs := ihl (fun z hz => ih z (by simp [hz]))
          rw [jsonBeqEntries.eq_def]
          simp [hx, hxs, Prod.ext_iff]

instance : DecidableEq Json := fun a b =>
  decidable_of_iff (jsonBeq a b = true) (jsonBeq_iff a b)

theorem jsonBeq_refl (a : Json) : jsonBeq a a = true := (jsonBeq_iff a a).mpr rfl

/-- Lookup of a key in a Python dict represented as an association list
(first matching entry wins; lists built by the embedding never carry
duplicate keys). `none` models a `KeyError` / missing key. -/
def lookupJ (k : String) : List (String × Json) → Option Json
  | [] => none
  | kv :: rest => if kv.1 = k then some kv.2 else lookupJ k rest

theorem lookupJ_sizeOf {k : String} {l : List (String × Json)} {v : Json}
    (h : lookupJ k l = some v) : sizeOf v < sizeOf l := by
  induction l with
  | nil => simp [lookupJ] at h
  | cons kv rest ih =>
    simp only [lookupJ] at h
    by_cases hk : kv.1 = k
    · simp only [hk, if_pos rfl] at h
      obtain ⟨a, b⟩ := kv
      simp at h
      subst h
      simp
      omega
    · simp [hk] at h
      have := ih h
      simp
      omega

theorem lookupJ_mem {k : String} {l : List (String × Json)} {v : Json}
    (h : lookupJ k l = some v) : (k, v) ∈ l := by
  induction l with
  | nil => simp [lookupJ] at h
  | cons kv rest ih =>
    simp only [lookupJ] at h
    by_cases hk : kv.1 = k
    · obtain ⟨a, b⟩ := kv
      simp_all
    · simp [hk] at h
      exact List.mem_cons_of_mem _ (ih h)

/-- One copy of each string, keeping first occurrences. -/
def dedupKeys : List String → List String
  | [] => []
  | k :: rest => k :: (dedupKeys rest).filter (fun x => x ≠ k)

theorem mem_dedupKeys {x : String} : ∀ {l : List String},
    x ∈ dedupKeys l ↔ x ∈ l := by
  intro l
  induction l with
  | nil => simp [dedupKeys]
  | cons k rest ih =>
    simp only [dedupKeys, List.mem_cons, List.mem_filter, ih]
    by_cases hx : x = k <;> simp [hx]

/-- The distinct keys of a dict (`set(d.keys())` keeps one copy of each). -/
def keyList (l : List (String × Json)) : List String :=
  dedupKeys (l.map Prod.fst)

/-- Insertion of one string into a sorted list (code-point order, as
Python `sorted` on `str`). -/
def insertSorted (k : String) : List String → List String
  | [] => [k]
  | h :: t => if k ≤ h then k :: h :: t else h :: insertSorted k t

/-- Python `sorted` on a set of strings. -/
def sortStr : List String → List String
  | [] => []
  | h :: t => insertSorted h (sortStr t)

theorem mem_insertSorted {x k : String} {l : List String} :
    x ∈ insertSorted k l ↔ x = k ∨ x ∈ l := by
  induction l with
  | nil => simp [insertSorted]
  | cons h t ih =>
    by_cases hk : k ≤ h
    · simp [insertSorted, hk]
    · simp [insertSorted, hk, ih]
      tauto

theorem mem_sortStr {x : String} {l : List String} :
    x ∈ sortStr l ↔ x ∈ l := by
  induction l with
  | nil => simp [sortStr]
  | cons h t ih => simp [sortStr, mem_insertSorted, ih]

theorem insertSorted_ne_nil {k : String} {l : List String} :
    insertSorted k l ≠ [] := by
  cases l with
  | nil => simp [insertSorted]
  | cons h t =>
    by_cases hk : k ≤ h <;> simp [insertSorted, hk]

theorem sortStr_eq_nil {l : List String} : sortStr l = [] ↔ l = [] := by
  cases l with
  | nil => simp [sortStr]
  | cons h t => simp [sortStr, insertSorted_ne_nil]

/-- Python `delta[key] = v` on a dict kept as an insertion-ordered
association list: overwrite in place when the key exists, append
otherwise. -/
def dictInsert (l : List (String × Json)) (k : String) (v : Json) :
    List (String × Json) :=
  if (l.map Prod.fst).contains k then
    l.map (fun kv => if kv.1 = k then (k, v) else kv)
  else l ++ [(k, v)]

/-- Sequential `delta[key] = v` assignments, one per listed entry. -/
def insertEntries (acc : List (String × Json)) :
    List (String × Json) → List (String × Json)
  | [] => acc
  | kv :: rest => insertEntries (dictInsert acc kv.1 kv.2) rest

mutual

/-- Embedding of `calculate_json_delta` (codex-trace.py lines 153-186).
Given two JSON values, returns a flag for whether they are identical,
plus a human-oriented JSON representation of the difference.  A result
of `none` models the call raising an exception: the only raise site is
`subdelta[0]` on an empty list (the recursive delta of two lists where
the previous one is strictly longer and the new one is empty). -/
def calculate_json_delta : Json → Json → Option (Bool × Json)
  | Json.obj p, Json.obj n =>
    let pk := keyList p
    let nk := keyList n
    let removed := (sortStr (pk.filter (fun k => !(nk.contains k)))).map
      (fun k => ("-" ++ k, Json.null))
    let added := (sortStr (nk.filter (fun k => !(pk.contains k)))).map
      (fun k => ("+" ++ k, (lookupJ k n).getD Json.null))
    match deltaCommon (sortStr (pk.filter (fun k => nk.contains k))) p n with
    | none => none
    | some commons =>
      let delta := insertEntries (insertEntries (insertEntries [] removed) added) commons
      some (delta.isEmpty, Json.obj delta)
  | Json.arr p, Json.arr n =>
    if p.length ≤ n.length then
      match allIdentical p n with
      | none => none
      | some allTrue =>
        if allTrue && p.length == n.length then some (true, Json.arr [])
        else if allTrue && decide (p.length < n.length) then
          some (false, Json.arr (Json.str "..." :: n.drop p.length))
        else some (false, Json.arr n)
    else some (false, Json.arr n)
  | x, y => some (jsonBeq x y, y)
termination_by x y => (sizeOf x + sizeOf y, 1, 0)
decreasing_by
all_goals
  simp_wf
  first
  | (apply Prod.Lex.left; omega)
  | (apply Prod.Lex.right; apply Prod.Lex.left; omega)
  | (apply Prod.Lex.right; apply Prod.Lex.right; omega)
  | omega

/-- The loop `for k in sorted(prev_keys & new_keys)` in
`calculate_json_delta`: recurse on each common key, re-key append
sentinels as `k+` and other child deltas as `*k`; `none` propagates an
exception (in particular the `IndexError` of `subdelta[0]` when the
child delta is an empty list). -/
def deltaCommon : List String → List (String × Json) → List (String × Json) →
    Option (List (String × Json))
  | [], _, _ => some []
  | k :: ks, p, n =>
    match hp : lookupJ k p, hn : lookupJ k n with
    | some a, some b =>
      match calculate_json_delta a b with
      | none => none
      | some (idt, sub) =>
        if idt then deltaCommon ks p n
        else
          match sub with
          | Json.arr [] => none
          | Json.arr (h :: t) =>
            (deltaCommon ks p n).map (fun rest =>
              (if jsonBeq h (Json.str "...") then (k ++ "+", Json.arr t)
               else ("*" ++ k, Json.arr (h :: t))) :: rest)
          | sub =>
            (deltaCommon ks p n).map (fun rest => ("*" ++ k, sub) :: rest)
    | _, _ => deltaCommon ks p n
termination_by ks p n => (sizeOf p + sizeOf n, 0, ks.length)
decreasing_by
all_goals
  simp_wf
  try have h1 := lookupJ_sizeOf hp
  try have h2 := lookupJ_sizeOf hn
  first
  | (apply Prod.Lex.left; omega)
  | (apply Prod.Lex.right; apply Prod.Lex.left; omega)
  | (apply Prod.Lex.right; apply Prod.Lex.right; omega)
  | omega

/-- The generator `all(calculate_json_delta(a,b)[0] for (a,b) in
zip(prevl, newl))`: short-circuiting conjunction of the identical flags,
`none` propagating an exception from a recursive call. -/
def allIdentical : List Json → List Json → Option Bool
  | [], _ => some true
  | _ :: _, [] => some true
  | a :: as, b :: bs =>
    match calculate_json_delta a b with
    | none => none
    | some (idt, _) => if idt then allIdentical as bs else some false
termination_by as bs => (sizeOf as + sizeOf bs, 0, 0)
decreasing_by
all_goals
  simp_wf
  first
  | (apply Prod.Lex.left; omega)
  | (apply Prod.Lex.right; apply Prod.Lex.left; omega)
  | (apply Prod.Lex.right; apply Prod.Lex.right; omega)
  | omega

end

/-! String processing.  Python `str.replace` is embedded at the level of
character lists: a left-to-right scan replacing each non-overlapping
occurrence of a (non-empty) pattern. -/

/-- Python `s.replace(pat, rep)` on character lists. -/
def replaceList (pat rep : List Char) : List Char → List Char
  | [] => []
  | c :: rest =>
    if h : pat ≠ [] ∧ pat.isPrefixOf (c :: rest) then
      rep ++ replaceList pat rep ((c :: rest).drop pat.length)
    else
      c :: replaceList pat rep rest
termination_by l => l.length
decreasing_by
all_goals simp_wf
all_goals try omega
all_goals
  obtain ⟨h1, h2⟩ := h
  cases pat with
  | nil => simp at h1
  | cons pc pt =>
    simp only [List.length_cons]
    omega

/-- Every character of a replaced string comes from the replacement
string or from the input. -/
theorem replaceList_mem {pat rep : List Char} {x : Char} :
    ∀ (l : List Char), x ∈ replaceList pat rep l → x ∈ rep ∨ x ∈ l := by
  have H : ∀ (n : Nat) (l : List Char), l.length ≤ n →
      x ∈ replaceList pat rep l → x ∈ rep ∨ x ∈ l := by
    intro n
    induction n with
    | zero =>
      intro l hl hx
      have hnil : l = [] := List.eq_nil_of_length_eq_zero (Nat.le_zero.mp hl)
      subst hnil
      simp [replaceList] at hx
    | succ n ih =>
      intro l hl hx
      cases l with
      | nil => simp [replaceList] at hx
      | cons c rest =>
        rw [replaceList] at hx
        by_cases h : pat ≠ [] ∧ pat.isPrefixOf (c :: rest)
        · rw [dif_pos h] at hx
          rcases List.mem_append.mp hx with hx | hx
          · exact Or.inl hx
          · have hplen : 1 ≤ pat.length := by
              cases pat with
              | nil => simp at h
              | cons pc pt => simp
            have hlen : ((c :: rest).drop pat.length).length ≤ n := by
              simp only [List.length_drop, List.length_cons] at hl ⊢
              omega
            rcases ih _ hlen hx with hx | hx
            · exact Or.inl hx
            · exact Or.inr (List.mem_of_mem_drop hx)
        · rw [dif_neg h] at hx
          rcases List.mem_cons.mp hx with hx | hx
          · exact Or.inr (by simp [hx])
          · rcases ih rest (by simp only [List.length_cons] at hl; omega) hx with hx | hx
            · exact Or.inl hx
            · exact Or.inr (List.mem_cons_of_mem _ hx)
  exact fun l => H l.length l le_rfl

/-- Replacing every occurrence of a single character removes it, provided
the replacement string does not reintroduce it. -/
theorem replaceList_single_not_mem {c : Char} {rep : List Char}
    (hrep : c ∉ rep) : ∀ (l : List Char), c ∉ replaceList [c] rep l := by
  have H : ∀ (n : Nat) (l : List Char), l.length ≤ n →
      c ∉ replaceList [c] rep l := by
    intro n
    induction n with
    | zero =>
      intro l hl
      have hnil : l = [] := List.eq_nil_of_length_eq_zero (Nat.le_zero.mp hl)
      subst hnil
      simp [replaceList]
    | succ n ih =>
      intro l hl
      cases l with
      | nil => simp [replaceList]
      | cons d rest =>
        rw [replaceList]
        by_cases h : ([c] : List Char) ≠ [] ∧ ([c] : List Char).isPrefixOf (d :: rest)
        · rw [dif_pos h]
          intro hx
          rcases List.mem_append.mp hx with hx | hx
          · exact hrep hx
          · have hlen : ((d :: rest).drop ([c] : List Char).length).length ≤ n := by
              simp only [List.length_drop, List.length_cons] at hl ⊢
              omega
            exact ih _ hlen hx
        · rw [dif_neg h]
          intro hx
          rcases List.mem_cons.mp hx with hx | hx
          · refine h ⟨by simp, ?_⟩
            subst hx
            simp [List.isPrefixOf]
          · exact ih rest (by simp only [List.length_cons] at hl; omega) hx
  exact fun l => H l.length l le_rfl

/-- The neutralization performed by `log` (codex-trace.py line 345) on the
serialized JSON text before appending:
`.replace(">", "\\u003e").replace("--", "-\\u002d")`. -/
def neutralizeChars (s : List Char) : List Char :=
  replaceList ['-', '-'] "-\\u002d".toList
    (replaceList ['>'] "\\u003e".toList s)

/-- The single line appended to the log document for a serialized value
`s`: the neutralized text followed by a newline (codex-trace.py line 345). -/
def logLine (s : List Char) : List Char :=
  neutralizeChars s ++ ['\n']

/-- The HTML escaper `esc` (codex-trace.py lines 149-150):
`value.replace("&","&amp;").replace("<","&lt;").replace(">","&gt;")`. -/
def escChars (s : List Char) : List Char :=
  replaceList ['>'] "&gt;".toList
    (replaceList ['<'] "&lt;".toList
      (replaceList ['&'] "&amp;".toList s))

def esc (value : String) : String := (escChars value.toList).asString

/-- ASCII whitespace as recognized by Python `str.split()` / `strip()`
(unicode-only space characters are not modelled; the traced payloads the
claims quantify over are ASCII-delimited). -/
def isPyWs (c : Char) : Bool :=
  c == ' ' || c == '\t' || c == '\n' || c == '\r' || c == '\x0b' || c == '\x0c' ||
  c == '\x1c' || c == '\x1d' || c == '\x1e' || c == '\x1f' || c == '\x85'

/-- Python `s.split()` with no argument: split on whitespace runs,
discarding empty pieces. -/
def pySplitWs (s : String) : List String :=
  (s.split isPyWs).filter (fun w => w ≠ "")

/-- Python line terminators for `str.splitlines`. -/
def isPyLineBreak (c : Char) : Bool :=
  c == '\n' || c == '\r' || c == '\x0b' || c == '\x0c' ||
  c == '\x1c' || c == '\x1d' || c == '\x1e' || c == '\x85' ||
  c == '\u2028' || c == '\u2029'

def splitlinesCountAux : List Char → Bool → Nat
  | [], _ => 0
  | '\r' :: '\n' :: rest, _ => splitlinesCountAux rest false
  | c :: rest, inLine =>
    if isPyLineBreak c then splitlinesCountAux rest false
    else (if inLine then 0 else 1) + splitlinesCountAux rest true

/-- `len(s.splitlines())` in Python. -/
def splitlinesCount (s : String) : Nat := splitlinesCountAux s.toList false

/-- The preview helper `short` (codex-trace.py lines 228-230): first
fifteen whitespace-delimited words, truncated to eighty characters, plus
a line count. -/
def short (s : String) : String :=
  let n := splitlinesCount s
  (String.intercalate " " ((pySplitWs s).take 15)).take 80 ++ s!"... [{n} lines]"

/-- `unescape_rust` (codex-trace.py lines 145-146): decode the backslash
escapes produced by Rust debug output. -/
def unescape_rust (s : String) : String :=
  (replaceList ['\x00'] ['\\']
    (replaceList ['\\', '"'] ['"']
      (replaceList ['\\', 't'] ['\t']
        (replaceList ['\\', 'r'] ['\r']
          (replaceList ['\\', 'n'] ['\n']
            (replaceList ['\\', '\\'] ['\x00'] s.toList)))))).asString

/-- The literal marker `## My request for Codex:` stripped from user
prompts. -/
def markerChars : List Char := "## My request for Codex:".toList

def afterMarkerAux : List Char → Option (List Char)
  | [] => none
  | c :: cs =>
    if markerChars.isPrefixOf (c :: cs) then
      some (((c :: cs).drop markerChars.length).dropWhile isPyWs)
    else afterMarkerAux cs

/-- `re.split(r'## My request for Codex:\s*', text, maxsplit=1)[-1]`:
the text after the first occurrence of the marker and its trailing
whitespace, or the whole text when the marker is absent. -/
def afterMarker (s : String) : String :=
  match afterMarkerAux s.toList with
  | some rest => rest.asString
  | none => s

/-- `re.sub(r'[^\w \-]+', '', text, flags=re.ASCII)`: keep only ASCII
word characters, spaces and hyphens. -/
def asciiWordFilter (s : String) : String :=
  (s.toList.filter (fun c => c.isAlphanum || c == '_' || c == ' ' || c == '-')).asString

/-- Python `str.strip()`. -/
def pyStrip (s : String) : String :=
  (((s.toList.dropWhile isPyWs).reverse.dropWhile isPyWs).reverse).asString

/-- The session-label pipeline of the user-submission branch
(codex-trace.py lines 356-360), applied to the quoted text captured by
the `Text { text: "..." }` regex (`none` when the pattern is absent, in
which case the empty string is used). -/
def submissionLabel (quoted : Option String) : String :=
  let text := unescape_rust (quoted.getD "")
  let text := afterMarker text
  let text := asciiWordFilter text
  pyStrip ((String.intercalate " " (((pyStrip text).splitOn " ").take 5)).take 20)

/-- Python `repr` of a string: quoted with the preferred quote character
and the common escapes. -/
def pyReprStr (s : String) : String :=
  let q : Char := if s.toList.contains '\'' && !(s.toList.contains '"') then '"' else '\''
  let body := s.toList.foldr (fun c acc =>
    if c == '\\' then '\\' :: '\\' :: acc
    else if c == q then '\\' :: c :: acc
    else if c == '\n' then '\\' :: 'n' :: acc
    else if c == '\r' then '\\' :: 'r' :: acc
    else if c == '\t' then '\\' :: 't' :: acc
    else c :: acc) []
  ((q :: body) ++ [q]).asString

mutual

/-- Python `repr` of a JSON value (single-quoted strings).  Only the
length of its output is observable in the log (byte-size hints), and
control characters other than backslash, quote, newline, carriage return
and tab are not re-escaped. -/
def pyRepr : Json → String
  | Json.null => "None"
  | Json.bool true => "True"
  | Json.bool false => "False"
  | Json.num n => toString n
  | Json.str s => pyReprStr s
  | Json.arr l => "[" ++ String.intercalate ", " (pyReprList l) ++ "]"
  | Json.obj l => "\x7b" ++ String.intercalate ", " (pyReprEntries l) ++ "\x7d"
termination_by j => sizeOf j

def pyReprList : List Json → List String
  | [] => []
  | x :: xs => pyRepr x :: pyReprList xs
termination_by l => sizeOf l

def pyReprEntries : List (String × Json) → List String
  | [] => []
  | kv :: rest => (pyReprStr kv.1 ++ ": " ++ pyRepr kv.2) :: pyReprEntries rest
termination_by l => sizeOf l
decreasing_by
all_goals
  simp_wf
  try omega
all_goals
  obtain ⟨k1, v1⟩ := kv
  simp
  omega

end

/-- Python `str()` of a JSON value: a string yields itself, any other
value its `repr`. -/
def pyStr : Json → String
  | Json.str s => s
  | v => pyRepr v

/-! The Semantic Normalizer.  `render_delta` and `render_response`
(codex-trace.py lines 232-312) are embedded with Python exceptions
modelled by `Option`: every subscript, attribute access or type-dependent
operation that can raise is a `none`, and the entry points catch the
`none` of their body and return the input value unchanged, exactly as
the `except Exception` handlers do.  The stdlib collaborators
`json.loads` and `datetime.now().strftime(...)` are abstracted as the
parameters `loads` and `now`. -/

/-- Dict guard: Python operations requiring a dict raise otherwise. -/
def asObj : Json → Option (List (String × Json))
  | Json.obj l => some l
  | _ => none

/-- String guard: Python string methods raise on non-strings. -/
def asStr : Json → Option String
  | Json.str s => some s
  | _ => none

/-- Python `for x in v` for the JSON values the renderers iterate: a list
yields its items; an empty dict or empty string yields nothing; any
other value either is not iterable (`TypeError`) or yields strings that
the loop bodies immediately subscript with a string key, raising
`TypeError` — both modelled as `none`. -/
def iterElems : Json → Option (List Json)
  | Json.arr l => some l
  | Json.obj [] => some []
  | Json.str "" => some []
  | _ => none

/-- Python `len` for values accepted by `iterElems`. -/
def pyLen : Json → Nat
  | Json.arr l => l.length
  | Json.obj l => (keyList l).length
  | Json.str s => s.length
  | _ => 0

/-- Python `d1 | d2` on dicts: entries of `d1` updated by `d2`, with new
keys of `d2` appended. -/
def dictUnion (d1 d2 : List (String × Json)) : List (String × Json) :=
  insertEntries d1 d2

/-- The `command[2]` preview in `render_function_call` (line 241): first
fifty characters, newlines replaced by spaces, a trailing ellipsis for
longer commands, HTML-escaped. -/
def shellArgPreview (c2 : String) : String :=
  esc (((c2.take 50).toList.map (fun c => if c == '\n' then ' ' else c)).asString ++
    (if c2.length > 50 then "..." else ""))

/-- The `shortargs` computation of `render_function_call` (lines 237-241).
`none` models an uncaught `AttributeError` from calling `startswith` or
`replace` on a non-string command element. -/
def shellShortArgs (nameJ arguments : Json) : Option String :=
  if jsonBeq nameJ (Json.str "shell") then
    match arguments with
    | Json.obj args =>
      match lookupJ "command" args with
      | some (Json.arr command) =>
        if 3 ≤ command.length then
          if jsonBeq (command.getD 0 Json.null) (Json.str "bash") then
            match command.getD 1 Json.null with
            | Json.str c1 =>
              if c1.startsWith "-" then
                match command.getD 2 Json.null with
                | Json.str c2 => some (shellArgPreview c2)
                | _ => none
              else some "..."
            | _ => none
          else some "..."
        else some "..."
      | _ => some "..."
    | _ => some "..."
  else some "..."

/-- Embedding of `render_function_call` (codex-trace.py lines 232-243). -/
def render_function_call (loads : String → Option Json) (i : Json)
    (bold : Bool) : Option Json := do
  let io ← asObj i
  let argRaw ← lookupJ "arguments" io
  let arguments := match argRaw with
    | Json.str s => (loads s).getD (Json.str s)
    | v => v
  let nameJ ← lookupJ "name" io
  let shortargs ← shellShortArgs nameJ arguments
  let name ← asStr nameJ
  let b := if bold then ("<b>", "</b>") else ("", "")
  pure (Json.obj [("RENDER", Json.bool true),
    ("label", Json.str ("function_call: " ++ b.1 ++ esc name ++ "(" ++ shortargs ++ ")" ++ b.2)),
    ("content", arguments)])

/-- One `tools` entry of `render_delta` (line 266). -/
def render_tool (tool : Json) : Option Json := do
  let t ← asObj tool
  let name ← asStr (← lookupJ "name" t)
  let params ← asObj (← lookupJ "parameters" t)
  let desc ← lookupJ "description" t
  pure (Json.obj [("RENDER", Json.bool true),
    ("label", Json.str ("tool: " ++ esc name)),
    ("content", Json.obj (dictUnion params [("description", desc)]))])

/-- One `message` content entry of `render_delta` (lines 272-275). -/
def render_msg_content (c : Json) : Option Json := do
  let co ← asObj c
  let textJ ← lookupJ "text" co
  let text ← asStr textJ
  let value := short (afterMarker text)
  let tyJ ← lookupJ "type" co
  let b := if jsonBeq tyJ (Json.str "input_text") then ("<b>", "</b>") else ("", "")
  let ty ← asStr tyJ
  pure (Json.obj [("RENDER", Json.bool true),
    ("label", Json.str (esc ty ++ ": ")),
    ("value", Json.str (b.1 ++ esc value ++ b.2)),
    ("content", textJ)])

/-- The `function_call_output` entry of `render_delta` (lines 278-288).
Only `json.JSONDecodeError` is caught around `json.loads(i["output"])`,
so a non-string output raises `TypeError` (modelled as `none`). -/
def render_fco (loads : String → Option Json) (io : List (String × Json)) :
    Option Json := do
  let outS ← asStr (← lookupJ "output" io)
  let output := (loads outS).getD (Json.str outS)
  let ov := match output with
    | Json.obj o =>
      match lookupJ "output" o with
      | some (Json.str s) => (Json.str s, short s)
      | _ => (Json.obj o, "")
    | v => (v, "")
  pure (Json.obj [("RENDER", Json.bool true),
    ("label", Json.str "function_call_output: "),
    ("value", Json.str ("<b>" ++ esc ov.2 ++ "</b>")),
    ("content", ov.1)])

/-- One input block of `render_delta` (lines 270-288), dispatched on its
`type` tag; unrecognized tags contribute nothing. -/
def render_block (loads : String → Option Json) (i : Json) :
    Option (List Json) := do
  let io ← asObj i
  let ty ← lookupJ "type" io
  if jsonBeq ty (Json.str "message") then do
    let cs ← iterElems (← lookupJ "content" io)
    cs.mapM render_msg_content
  else if jsonBeq ty (Json.str "function_call") then do
    let r ← render_function_call loads i false
    pure [r]
  else if jsonBeq ty (Json.str "function_call_output") then do
    let r ← render_fco loads io
    pure [r]
  else pure []

/-- The `try` body of `render_delta` (lines 258-290). -/
def render_delta_body (loads : String → Option Json) (now : String)
    (d : List (String × Json)) : Option Json := do
  let c1 ← match lookupJ "instructions" d with
    | none => pure []
    | some instr => do
      let s ← asStr instr
      pure [Json.obj [("RENDER", Json.bool true),
        ("label", Json.str "instructions: "),
        ("value", Json.str (esc (short s))), ("content", instr)]]
  let c2 ← match lookupJ "tools" d with
    | none => pure []
    | some toolsJ => do
      let ts ← iterElems toolsJ
      let tcs ← ts.mapM render_tool
      let cnt := pyLen toolsJ
      pure [Json.obj [("RENDER", Json.bool true), ("label", Json.str "tools: "),
        ("value", Json.str s!"[{cnt} tools]"), ("content", Json.arr tcs)]]
  let inputJ := (lookupJ "input" d).getD ((lookupJ "input+" d).getD (Json.arr []))
  let blocks ← iterElems inputJ
  let c3s ← blocks.mapM (render_block loads)
  let content := c1 ++ c2 ++ c3s.join ++
    [Json.obj [("RENDER", Json.bool true), ("label", Json.str "[raw json]"),
      ("content", Json.obj d)]]
  pure (Json.obj [("RENDER", Json.bool true),
    ("label", Json.str s!"[{now}] POST"),
    ("open", Json.bool true), ("content", Json.arr content)])

/-- Embedding of `render_delta` (codex-trace.py lines 246-292): non-dict
deltas and dicts without any of the four relevant top-level keys pass
through unchanged; otherwise the curated body is built, with the
`except Exception: return d` fallback modelled by `Option.getD`. -/
def render_delta (loads : String → Option Json) (now : String)
    (delta : Json) : Json :=
  match delta with
  | Json.obj d =>
    if (lookupJ "instructions" d).isNone && (lookupJ "tools" d).isNone &&
       (lookupJ "input" d).isNone && (lookupJ "input+" d).isNone then
      Json.obj d
    else (render_delta_body loads now d).getD (Json.obj d)
  | v => v

/-- One reasoning summary entry of `render_response` (line 301). -/
def render_summary (summary : Json) : Option Json := do
  let so ← asObj summary
  let ty ← asStr (← lookupJ "type" so)
  let textJ ← lookupJ "text" so
  let text ← asStr textJ
  pure (Json.obj [("RENDER", Json.bool true),
    ("label", Json.str (esc ty ++ ": ")),
    ("value", Json.str (esc (short text))),
    ("content", textJ)])

/-- One message content entry of `render_response` (lines 306-308). -/
def render_resp_msg (c : Json) : Option Json := do
  let co ← asObj c
  let text := pyStr ((lookupJ "text" co).getD (Json.str "???"))
  let ty ← asStr (← lookupJ "type" co)
  pure (Json.obj [("RENDER", Json.bool true),
    ("label", Json.str (esc ty ++ ": ")),
    ("value", Json.str ("<b>" ++ esc (short text) ++ "</b>")),
    ("content", Json.str text)])

/-- One output item of `render_response` (lines 297-308), dispatched on
its `type` tag. -/
def render_output (loads : String → Option Json) (output : Json) :
    Option (List Json) := do
  let oo ← asObj output
  let ty ← lookupJ "type" oo
  if jsonBeq ty (Json.str "reasoning") then do
    let sums ← iterElems (← lookupJ "summary" oo)
    let rs ← sums.mapM render_summary
    let encLen := (pyStr ((lookupJ "encrypted_content" oo).getD (Json.str ""))).length
    pure [Json.obj [("RENDER", Json.bool true),
      ("label", Json.str s!"reasoning: [{encLen} bytes]"),
      ("open", Json.bool true), ("content", Json.arr rs)]]
  else if jsonBeq ty (Json.str "function_call") then do
    let r ← render_function_call loads output true
    pure [r]
  else if jsonBeq ty (Json.str "message") then do
    let cs ← iterElems (← lookupJ "content" oo)
    cs.mapM render_resp_msg
  else pure []

/-- The `try` body of `render_response` (lines 296-310). -/
def render_response_body (loads : String → Option Json) (now : String)
    (response : Json) : Option Json := do
  let ro ← asObj response
  let rio ← asObj (← lookupJ "response" ro)
  let outs ← iterElems (← lookupJ "output" rio)
  let css ← outs.mapM (render_output loads)
  let content := css.join ++
    [Json.obj [("RENDER", Json.bool true), ("label", Json.str "[raw json]"),
      ("content", response)]]
  pure (Json.obj [("RENDER", Json.bool true),
    ("label", Json.str s!"[{now}] response.completed"),
    ("open", Json.bool true), ("content", Json.arr content)])

/-- Embedding of `render_response` (codex-trace.py lines 294-312): the
whole body sits in a `try` whose `except Exception` returns the input
unchanged, modelled by `Option.getD`. -/
def render_response (loads : String → Option Json) (now : String)
    (response : Json) : Json :=
  (render_response_body loads now response).getD response

/-! The Stream Classifier.  The loop body of `main` (codex-trace.py
lines 347-382) is embedded as a step function over one pre-classified
stderr line.  A `StderrLine` records which of the four recognizers
(lines 351, 355, 362, 370) matched, carrying for the JSON-bearing lines
the result of `json.loads` on the text from the first `{` onward — an
object when parsing succeeded (text starting with `{` can only parse to
a dict), `none` on `json.JSONDecodeError` — and for submissions the
quoted text captured by the `Text { text: "..." }` regex.  The wall
clock (`timestamp`) and the on-disk path derivation of `log` are outside
the classifier state the claims quantify over. -/

inductive StderrLine where
  | configuring : StderrLine
  | submission (quoted : Option String) : StderrLine
  | post (parsed : Option (List (String × Json))) : StderrLine
  | sse (parsed : Option (List (String × Json))) : StderrLine
  | unrecognized : StderrLine

/-- The mutable state threaded through `main`'s loop: the session label
(`prompt`, `None` until assigned), the previous snapshot (`prev`,
initially Python `None`, modelled as `Json.null`), and the sticky
`poisoned` flag. -/
structure TraceState where
  prompt : Option String
  prev : Json
  poisoned : Bool
deriving DecidableEq

/-- The sentinel substituted for a malformed outbound POST body
(codex-trace.py line 366). -/
def errSentinel : Json := Json.obj [("ERROR", Json.str "Malformed json")]

/-- The value bound to `post` after the parse attempt of line 363-366. -/
def postJson (parsed : Option (List (String × Json))) : Json :=
  match parsed with
  | some o => Json.obj o
  | none => errSentinel

/-- The value assigned to `prompt` when no label has been assigned yet
(line 361): `" - " + text if text else ""`. -/
def promptAssign (quoted : Option String) : String :=
  let text := submissionLabel quoted
  if text ≠ "" then " - " ++ text else ""

/-- One iteration of `main`'s line loop (codex-trace.py lines 347-382):
poisoned sessions consume the line without interpretation; otherwise the
first matching recognizer fires; an exception while processing (the only
uncaught raise site is `calculate_json_delta`) sets the poisoned flag
and produces no log entry.  The second component is the value passed to
`log` for this line, if any. -/
def stepLine (loads : String → Option Json) (now : String)
    (s : TraceState) (l : StderrLine) : TraceState × Option Json :=
  if s.poisoned then (s, none)
  else
    match l with
    | StderrLine.configuring =>
      ({ prompt := none, prev := Json.null, poisoned := s.poisoned }, none)
    | StderrLine.submission quoted =>
      let prompt := match s.prompt with
        | some p => some p
        | none => some (promptAssign quoted)
      ({ s with prompt := prompt }, none)
    | StderrLine.post parsed =>
      let post := postJson parsed
      match calculate_json_delta s.prev post with
      | none => ({ s with poisoned := true }, none)
      | some r => ({ s with prev := post }, some (render_delta loads now r.2))
    | StderrLine.sse parsed =>
      match parsed with
      | none => (s, none)
      | some r =>
        if jsonBeq ((lookupJ "type" r).getD (Json.str ""))
            (Json.str "response.completed") then
          (s, some (render_response loads now (Json.obj r)))
        else (s, none)
    | StderrLine.unrecognized => (s, none)

/-- Folding `stepLine` over the remainder of the stream, collecting the
values appended to the log. -/
def runLines (loads : String → Option Json) (now : String) :
    TraceState → List StderrLine → TraceState × List Json
  | s, [] => (s, [])
  | s, l :: ls =>
    let r := stepLine loads now s l
    let rest := runLines loads now r.1 ls
    (rest.1, r.2.toList ++ rest.2)

/-! Properties of the Delta Engine. -/

/-- The "empty/equivalent" delta that claim C4 describes for identical
operands: an empty mapping for mappings, an empty sequence for
sequences, the value itself otherwise. -/
def emptyEquiv : Json → Json
  | Json.obj _ => Json.obj []
  | Json.arr _ => Json.arr []
  | x => x

theorem dictInsert_ne_nil {l : List (String × Json)} {k : String} {v : Json} :
    dictInsert l k v ≠ [] := by
  unfold dictInsert
  split
  · intro h
    rename_i hc
    cases l with
    | nil => simp at hc
    | cons kv rest => simp at h
  · simp

theorem insertEntries_eq_nil {acc es : List (String × Json)} :
    insertEntries acc es = [] ↔ acc = [] ∧ es = [] := by
  induction es generalizing acc with
  | nil => simp [insertEntries]
  | cons kv rest ih =>
    simp only [insertEntries, ih]
    constructor
    · rintro ⟨h, -⟩
      exact absurd h dictInsert_ne_nil
    · rintro ⟨-, h⟩
      simp at h

theorem deltaCommon_self (ks : List String) (p : List (String × Json))
    (hp : ∀ k v, lookupJ k p = some v →
      calculate_json_delta v v = some (true, emptyEquiv v)) :
    deltaCommon ks p p = some [] := by
  induction ks with
  | nil => rw [deltaCommon]
  | cons k ks ih =>
    rw [deltaCommon]
    split
    · rename_i a b ha hb
      have hab : a = b := by
        rw [ha] at hb
        exact Option.some.inj hb
      subst hab
      rw [hp k a ha]
      simpa using ih
    · exact ih

theorem allIdentical_append_of (l rest : List Json)
    (hl : ∀ x ∈ l, calculate_json_delta x x = some (true, emptyEquiv x)) :
    allIdentical l (l ++ rest) = some true := by
  induction l with
  | nil => rw [allIdentical]
  | cons x xs ih =>
    rw [List.cons_append, allIdentical, hl x (by simp)]
    simpa using ih (fun y hy => hl y (by simp [hy]))

/-- The delta of any JSON value against itself: identical, with the
empty/equivalent delta. -/
theorem calculate_json_delta_self :
    ∀ x, calculate_json_delta x x = some (true, emptyEquiv x) := by
  intro x
  induction x using jsonInd with
  | hnull => rw [calculate_json_delta.eq_def]; simp [jsonBeq.eq_def, emptyEquiv]
  | hbool b => rw [calculate_json_delta.eq_def]; simp [jsonBeq.eq_def, emptyEquiv]
  | hnum n => rw [calculate_json_delta.eq_def]; simp [jsonBeq.eq_def, emptyEquiv]
  | hstr s => rw [calculate_json_delta.eq_def]; simp [jsonBeq.eq_def, emptyEquiv]
  | harr l ihl =>
    have hall : allIdentical l l = some true := by
      have h := allIdentical_append_of l [] ihl
      rwa [List.append_nil] at h
    rw [calculate_json_delta.eq_def]
    simp [hall, emptyEquiv]
  | hobj l ihl =>
    have hdc : deltaCommon
        (sortStr ((keyList l).filter (fun k => decide (k ∈ keyList l)))) l l =
        some [] :=
      deltaCommon_self _ _ (fun k v hv => ihl (k, v) (lookupJ_mem hv))
    have hrem : (keyList l).filter (fun k => !decide (k ∈ keyList l)) = [] := by
      rw [List.filter_eq_nil]
      intro k hk
      simp [hk]
    rw [calculate_json_delta.eq_def]
    simp [hdc, hrem, sortStr, insertEntries, emptyEquiv]

/-- A delta-dict key in one of the four marker forms of claim C1:
`-k` (removed), `+k` (added), `*k` (changed) or `k+` (appended). -/
def markerKey (key : String) : Prop :=
  (∃ k, key = "-" ++ k) ∨ (∃ k, key = "+" ++ k) ∨
  (∃ k, key = "*" ++ k) ∨ (∃ k, key = k ++ "+")

/-- The outer-shape property claim C1 states for the delta returned by
`calculate_json_delta prev new`: a marker-keyed mapping when both
operands are mappings; for two sequences either the empty sequence, the
append-sentinel form, or the new sequence verbatim; the raw new value
otherwise. -/
def deltaShapeSpec : Json → Json → Json → Prop
  | Json.obj _, Json.obj _, d =>
    ∃ entries, d = Json.obj entries ∧ ∀ key ∈ entries.map Prod.fst, markerKey key
  | Json.arr _, Json.arr nl, d =>
    d = Json.arr [] ∨ (∃ items, d = Json.arr (Json.str "..." :: items)) ∨
    d = Json.arr nl
  | _, new, d => d = new

theorem map_ite_keys {l : List (String × Json)} {k key : String} {v : Json}
    (h : key ∈ (l.map (fun kv => if kv.1 = k then (k, v) else kv)).map Prod.fst) :
    key ∈ l.map Prod.fst ∨ key = k := by
  induction l with
  | nil => simp at h
  | cons kv rest ih =>
    simp only [List.map_cons, List.mem_cons] at h ⊢
    rcases h with h | h
    · by_cases hk : kv.1 = k
      · rw [if_pos hk] at h
        exact Or.inr h
      · rw [if_neg hk] at h
        exact Or.inl (Or.inl h)
    · rcases ih h with h | h
      · exact Or.inl (Or.inr h)
      · exact Or.inr h

theorem dictInsert_keys {l : List (String × Json)} {k key : String} {v : Json}
    (h : key ∈ (dictInsert l k v).map Prod.fst) :
    key ∈ l.map Prod.fst ∨ key = k := by
  unfold dictInsert at h
  split at h
  · exact map_ite_keys h
  · simp only [List.map_append, List.mem_append] at h
    rcases h with h | h
    · exact Or.inl h
    · simp at h
      exact Or.inr h

theorem insertEntries_keys : ∀ {es acc : List (String × Json)} {key : String},
    key ∈ (insertEntries acc es).map Prod.fst →
    key ∈ acc.map Prod.fst ∨ key ∈ es.map Prod.fst := by
  intro es
  induction es with
  | nil =>
    intro acc key h
    rw [insertEntries] at h
    exact Or.inl h
  | cons kv rest ih =>
    intro acc key h
    rw [insertEntries] at h
    rcases ih h with h | h
    · rcases dictInsert_keys h with h | h
      · exact Or.inl h
      · right
        simp [h]
    · right
      simp only [List.map_cons, List.mem_cons]
      exact Or.inr h

theorem deltaCommon_keys : ∀ {ks : List String}
    {p n es : List (String × Json)}, deltaCommon ks p n = some es →
    ∀ key ∈ es.map Prod.fst, (∃ k, key = "*" ++ k) ∨ (∃ k, key = k ++ "+") := by
  intro ks
  induction ks with
  | nil =>
    intro p n es h key hk
    rw [deltaCommon] at h
    obtain rfl : ([] : List (String × Json)) = es := Option.some.inj h
    simp at hk
  | cons k ks ih =>
    intro p n es h key hk
    rw [deltaCommon] at h
    split at h
    · split at h
      · exact absurd h (by simp)
      · rename_i pr heq
        split at h
        · exact ih h key hk
        · split at h
          · exact absurd h (by simp)
          · rename_i hd t
            obtain ⟨rest, hrest, hes⟩ := Option.map_eq_some'.mp h
            subst hes
            simp only [List.map_cons, List.mem_cons] at hk
            rcases hk with hk | hk
            · by_cases hsen : jsonBeq hd (Json.str "...") = true
              · rw [if_pos hsen] at hk
                exact Or.inr ⟨k, hk⟩
              · rw [if_neg hsen] at hk
                exact Or.inl ⟨k, hk⟩
            · exact ih hrest key hk
          · obtain ⟨rest, hrest, hes⟩ := Option.map_eq_some'.mp h
            subst hes
            simp only [List.map_cons, List.mem_cons] at hk
            rcases hk with hk | hk
            · exact Or.inl ⟨k, hk⟩
            · exact ih hrest key hk
    · exact ih h key hk

mutual

/-- Python `==` on JSON values: mappings compare as unordered key-value
maps (key sets equal and values equal key-wise), sequences elementwise,
scalars structurally. -/
def jsonEq : Json → Json → Bool
  | Json.obj p, Json.obj n =>
    (keyList p).all (fun k => (keyList n).contains k) &&
    (keyList n).all (fun k => (keyList p).contains k) &&
    jsonEqCommon (keyList p) p n
  | Json.arr a, Json.arr b => a.length == b.length && jsonEqList a b
  | x, y => jsonBeq x y
termination_by x _ => (sizeOf x, 0)
decreasing_by
all_goals
  simp_wf
  first
  | (apply Prod.Lex.left; omega)
  | (apply Prod.Lex.right; omega)
  | omega

/-- Key-wise value comparison over a list of keys. -/
def jsonEqCommon : List String → List (String × Json) → List (String × Json) → Bool
  | [], _, _ => true
  | k :: ks, p, n =>
    (match hp : lookupJ k p, hn : lookupJ k n with
     | some a, some b => jsonEq a b
     | _, _ => true) && jsonEqCommon ks p n
termination_by ks p _ => (sizeOf p, ks.length + 1)
decreasing_by
all_goals
  simp_wf
  try have h1 := lookupJ_sizeOf hp
  first
  | (apply Prod.Lex.left; omega)
  | (apply Prod.Lex.right; omega)
  | omega

/-- Elementwise comparison of sequences of equal length. -/
def jsonEqList : List Json → List Json → Bool
  | [], [] => true
  | a :: as, b :: bs => jsonEq a b && jsonEqList as bs
  | _, _ => false
termination_by as _ => (sizeOf as, 0)
decreasing_by
all_goals
  simp_wf
  first
  | (apply Prod.Lex.left; omega)
  | (apply Prod.Lex.right; omega)
  | omega

end

theorem jsonEqCommon_of {p n : List (String × Json)} : ∀ {ks : List String},
    (∀ k ∈ ks, ∀ a b, lookupJ k p = some a → lookupJ k n = some b →
      jsonEq a b = true) → jsonEqCommon ks p n = true := by
  intro ks
  induction ks with
  | nil => intro _; rw [jsonEqCommon]
  | cons k ks ih =>
    intro hk
    rw [jsonEqCommon]
    simp only [Bool.and_eq_true]
    constructor
    · split
      · rename_i a b ha hb
        exact hk k (by simp) a b ha hb
      · rfl
    · exact ih (fun k2 hk2 a b ha hb => hk k2 (by simp [hk2]) a b ha hb)

theorem jsonEqList_refl_of : ∀ {l : List Json},
    (∀ x ∈ l, jsonEq x x = true) → jsonEqList l l = true := by
  intro l
  induction l with
  | nil => intro _; rw [jsonEqList]
  | cons x xs ih =>
    intro h
    rw [jsonEqList]
    simp only [Bool.and_eq_true]
    exact ⟨h x (by simp), ih (fun y hy => h y (by simp [hy]))⟩

theorem jsonEq_refl : ∀ x, jsonEq x x = true := by
  intro x
  induction x using jsonInd with
  | hnull => rw [jsonEq.eq_def]; simp [jsonBeq.eq_def]
  | hbool b => rw [jsonEq.eq_def]; simp [jsonBeq.eq_def]
  | hnum n => rw [jsonEq.eq_def]; simp [jsonBeq.eq_def]
  | hstr s => rw [jsonEq.eq_def]; simp [jsonBeq.eq_def]
  | harr l ihl =>
    rw [jsonEq.eq_def]
    simp only [Bool.and_eq_true, beq_iff_eq, eq_self_iff_true]
    exact ⟨trivial, jsonEqList_refl_of ihl⟩
  | hobj l ihl =>
    rw [jsonEq.eq_def]
    simp only [Bool.and_eq_true, List.all_eq_true]
    refine ⟨⟨?_, ?_⟩, ?_⟩
    · intro k hk
      simpa using hk
    · intro k hk
      simpa using hk
    · apply jsonEqCommon_of
      intro k hk a b ha hb
      rw [ha] at hb
      obtain rfl := Option.some.inj hb
      exact ihl (k, a) (lookupJ_mem ha)

theorem jsonEqList_refl (l : List Json) : jsonEqList l l = true :=
  jsonEqList_refl_of (fun x _ => jsonEq_refl x)

theorem deltaCommon_some_nil : ∀ {ks : List String}
    {p n : List (String × Json)}, deltaCommon ks p n = some [] →
    ∀ k ∈ ks, ∀ a b, lookupJ k p = some a → lookupJ k n = some b →
    ∃ d, calculate_json_delta a b = some (true, d) := by
  intro ks
  induction ks with
  | nil =>
    intro p n h k hk
    simp at hk
  | cons k2 ks ih =>
    intro p n h k hk a b ha hb
    rw [deltaCommon] at h
    split at h
    · rename_i a2 b2 ha2 hb2
      split at h
      · exact absurd h (by simp)
      · rename_i idt sub heq
        split at h
        · rename_i hidt
          rcases List.mem_cons.mp hk with hk | hk
          · subst hk
            rw [ha] at ha2
            rw [hb] at hb2
            obtain rfl := Option.some.inj ha2
            obtain rfl := Option.some.inj hb2
            subst hidt
            exact ⟨sub, heq⟩
          · exact ih h k hk a b ha hb
        · split at h
          · exact absurd h (by simp)
          · obtain ⟨rest, -, hes⟩ := Option.map_eq_some'.mp h
            simp at hes
          · obtain ⟨rest, -, hes⟩ := Option.map_eq_some'.mp h
            simp at hes
    · rename_i hno
      rcases List.mem_cons.mp hk with hk | hk
      · subst hk
        exact (hno a b ha hb).elim
      · exact ih h k hk a b ha hb

theorem jsonEqList_of_allIdentical_bounded :
    ∀ (as bs : List Json),
    (∀ x y, sizeOf x + sizeOf y < sizeOf (Json.arr as) + sizeOf (Json.arr bs) →
      ∀ d, calculate_json_delta x y = some (true, d) → jsonEq x y = true) →
    as.length = bs.length →
    allIdentical as bs = some true → jsonEqList as bs = true := by
  intro as
  induction as with
  | nil =>
    intro bs _ hlen _
    cases bs with
    | nil => rw [jsonEqList]
    | cons y ys => simp at hlen
  | cons x xs ihl =>
    intro bs hIH hlen hall
    cases bs with
    | nil => simp at hlen
    | cons y ys =>
      rw [allIdentical] at hall
      split at hall
      · exact absurd hall (by simp)
      · rename_i idt sub heq
        split at hall
        · rename_i hidt
          rw [jsonEqList]
          simp only [Bool.and_eq_true]
          constructor
          · refine hIH x y ?_ sub (hidt ▸ heq)
            simp only [Json.arr.sizeOf_spec, List.cons.sizeOf_spec]
            omega
          · refine ihl ys ?_ (by simpa using hlen) hall
            intro x2 y2 hs d2 hd2
            refine hIH x2 y2 ?_ d2 hd2
            simp only [Json.arr.sizeOf_spec, List.cons.sizeOf_spec] at hs ⊢
            omega
        · exact absurd hall (by simp)

/-- Soundness of the identical flag: when `calculate_json_delta` reports
two values identical, they are equal as Python values (mappings compared
as unordered maps). -/
theorem calculate_json_delta_true_jsonEq :
    ∀ a b d, calculate_json_delta a b = some (true, d) → jsonEq a b = true := by
  suffices H : ∀ (N : Nat) (a b : Json), sizeOf a + sizeOf b ≤ N →
      ∀ d, calculate_json_delta a b = some (true, d) → jsonEq a b = true from
    fun a b d h => H (sizeOf a + sizeOf b) a b le_rfl d h
  intro N
  induction N using Nat.strong_induction_on with
  | _ N ih =>
    intro a b hN d h
    cases a <;> cases b <;>
      first
      | (rw [calculate_json_delta.eq_def] at h
         simp only [Option.some.injEq, Prod.mk.injEq] at h
         rw [jsonEq.eq_def]
         exact h.1)
      | skip
    case arr.arr p n =>
      rw [calculate_json_delta.eq_def] at h
      simp only [] at h
      split at h
      · split at h
        · exact absurd h (by simp)
        · rename_i allTrue hall
          split at h
          · rename_i hcond
            simp only [Bool.and_eq_true, beq_iff_eq] at hcond
            obtain ⟨hallTrue, hleneq⟩ := hcond
            subst hallTrue
            rw [jsonEq.eq_def]
            simp only [Bool.and_eq_true, beq_iff_eq]
            refine ⟨hleneq, ?_⟩
            refine jsonEqList_of_allIdentical_bounded p n ?_ hleneq hall
            intro x y hs d2 hd2
            exact ih _ (lt_of_lt_of_le hs hN) x y le_rfl d2 hd2
          · split at h
            · exact absurd h (by simp)
            · exact absurd h (by simp)
      · exact absurd h (by simp)
    case obj.obj p n =>
      rw [calculate_json_delta.eq_def] at h
      simp only [] at h
      split at h
      · exact absurd h (by simp)
      · rename_i commons hdc
        simp only [Option.some.injEq, Prod.mk.injEq] at h
        obtain ⟨hemp, -⟩ := h
        rw [List.isEmpty_iff] at hemp
        rw [insertEntries_eq_nil] at hemp
        obtain ⟨hemp2, hcom⟩ := hemp
        rw [insertEntries_eq_nil] at hemp2
        obtain ⟨hemp3, hadd⟩ := hemp2
        rw [insertEntries_eq_nil] at hemp3
        obtain ⟨-, hrem⟩ := hemp3
        rw [List.map_eq_nil, sortStr_eq_nil, List.filter_eq_nil] at hrem hadd
        subst hcom
        rw [jsonEq.eq_def]
        simp only [Bool.and_eq_true, List.all_eq_true]
        refine ⟨⟨?_, ?_⟩, ?_⟩
        · intro k hk
          have := hrem k hk
          simpa using this
        · intro k hk
          have := hadd k hk
          simpa using this
        · apply jsonEqCommon_of
          intro k hk a b ha hb
          have hkn : k ∈ keyList n := by
            have := hrem k hk
            simpa using this
          have hkfil : k ∈ (keyList p).filter (fun k2 => (keyList n).contains k2) := by
            rw [List.mem_filter]
            exact ⟨hk, by simpa using hkn⟩
          have hks : k ∈ sortStr ((keyList p).filter (fun k2 => (keyList n).contains k2)) :=
            mem_sortStr.mpr hkfil
          obtain ⟨d2, hd2⟩ := deltaCommon_some_nil hdc k hks a b ha hb
          have hsize : sizeOf a + sizeOf b < sizeOf (Json.obj p) + sizeOf (Json.obj n) := by
            have h1 := lookupJ_sizeOf ha
            have h2 := lookupJ_sizeOf hb
            simp only [Json.obj.sizeOf_spec]
            omega
          exact ih _ (lt_of_lt_of_le hsize hN) a b le_rfl d2 hd2

theorem jsonEqList_append_drop : ∀ (al bl : List Json),
    al.length ≤ bl.length → allIdentical al bl = some true →
    jsonEqList (al ++ bl.drop al.length) bl = true := by
  intro al
  induction al with
  | nil =>
    intro bl _ _
    simpa using jsonEqList_refl bl
  | cons x xs ih =>
    intro bl hlen hall
    cases bl with
    | nil => simp at hlen
    | cons y ys =>
      rw [allIdentical] at hall
      split at hall
      · exact absurd hall (by simp)
      · rename_i idt sub heq
        split at hall
        · rename_i hidt
          subst hidt
          have h1 : jsonEq x y = true := calculate_json_delta_true_jsonEq x y sub heq
          simp only [List.cons_append, List.length_cons, List.drop_succ_cons]
          rw [jsonEqList]
          simp only [Bool.and_eq_true]
          exact ⟨h1, ih ys (by simpa using hlen) hall⟩
        · exact absurd hall (by simp)

/-- The property claim C3 states, at mappings `p` and `n`: every delta
entry under a key of the form `k+` lists items whose append to `prev[k]`
yields `new[k]` (JSON-value equality, mappings unordered). -/
def appendEntryClaim (p n : List (String × Json)) : Prop :=
  ∀ idt d k items,
    calculate_json_delta (Json.obj p) (Json.obj n) = some (idt, Json.obj d) →
    (k ++ "+", Json.arr items) ∈ d →
    ∃ pl nl, lookupJ k p = some (Json.arr pl) ∧ lookupJ k n = some (Json.arr nl) ∧
      jsonEq (Json.arr nl) (Json.arr (pl ++ items)) = true

theorem calculate_json_delta_str_some (a : Json) (s : String) :
    calculate_json_delta a (Json.str s) =
      some (jsonBeq a (Json.str s), Json.str s) := by
  cases a <;> rw [calculate_json_delta.eq_def]

theorem deltaCommon_sentinel : ∀ (ks : List String) (p : List (String × Json)),
    (deltaCommon ks p [("ERROR", Json.str "Malformed json")]).isSome = true := by
  intro ks
  induction ks with
  | nil =>
    intro p
    rw [deltaCommon]
    rfl
  | cons k ks ih =>
    intro p
    rw [deltaCommon]
    split
    · rename_i a b ha hb
      have hb2 : b = Json.str "Malformed json" := by
        simp only [lookupJ] at hb
        by_cases hk : "ERROR" = k
        · rw [if_pos] at hb
          · exact (Option.some.inj hb).symm
          · simpa using hk
        · rw [if_neg] at hb
          · simp [lookupJ] at hb
          · simpa using hk
      subst hb2
      rw [calculate_json_delta_str_some]
      cases hflag : jsonBeq a (Json.str "Malformed json") with
      | true => simpa using ih p
      | false => simpa using ih p
    · exact ih p

theorem calculate_json_delta_sentinel_isSome (x : Json) :
    (calculate_json_delta x errSentinel).isSome = true := by
  cases x with
  | obj p =>
    show (calculate_json_delta (Json.obj p)
      (Json.obj [("ERROR", Json.str "Malformed json")])).isSome = true
    rw [calculate_json_delta.eq_def]
    have h := deltaCommon_sentinel
      (sortStr ((keyList p).filter
        (fun k => (keyList [("ERROR", Json.str "Malformed json")]).contains k))) p
    obtain ⟨r, hr⟩ := Option.isSome_iff_exists.mp h
    simp only []
    rw [hr]
    rfl
  | null => rw [calculate_json_delta.eq_def]; rfl
  | bool b => rw [calculate_json_delta.eq_def]; rfl
  | num n => rw [calculate_json_delta.eq_def]; rfl
  | str s => rw [calculate_json_delta.eq_def]; rfl
  | arr l => rw [calculate_json_delta.eq_def]; rfl

/-! The claims. -/

/-- C1: whenever `calculate_json_delta prev new` returns, the delta has
the same outer shape as `new`: for two mappings it is a mapping all of
whose keys have one of the four marker forms; for two sequences it is
the empty sequence, the append-sentinel form, or the full new sequence
verbatim; otherwise it is the raw value `new`. -/
theorem spec_c1 (prev new : Json) (idt : Bool) (d : Json)
    (h : calculate_json_delta prev new = some (idt, d)) :
    deltaShapeSpec prev new d := by
  cases prev <;> cases new <;>
    first
    | (rw [calculate_json_delta.eq_def] at h
       simp only [Option.some.injEq, Prod.mk.injEq] at h
       simp [deltaShapeSpec, ← h.2])
    | skip
  case arr.arr p n =>
    rw [calculate_json_delta.eq_def] at h
    simp only [] at h
    split at h
    · split at h
      · exact absurd h (by simp)
      · split at h
        · simp only [Option.some.injEq, Prod.mk.injEq] at h
          simp [deltaShapeSpec, ← h.2]
        · split at h
          · simp only [Option.some.injEq, Prod.mk.injEq] at h
            simp only [deltaShapeSpec]
            right
            left
            exact ⟨_, h.2.symm⟩
          · simp only [Option.some.injEq, Prod.mk.injEq] at h
            simp [deltaShapeSpec, ← h.2]
    · simp only [Option.some.injEq, Prod.mk.injEq] at h
      simp [deltaShapeSpec, ← h.2]
  case obj.obj p n =>
    rw [calculate_json_delta.eq_def] at h
    simp only [] at h
    split at h
    · exact absurd h (by simp)
    · rename_i commons hdc
      simp only [Option.some.injEq, Prod.mk.injEq] at h
      refine ⟨_, h.2.symm, ?_⟩
      intro key hkey
      rcases insertEntries_keys hkey with hkey | hkey
      · rcases insertEntries_keys hkey with hkey | hkey
        · rcases insertEntries_keys hkey with hkey | hkey
          · simp at hkey
          · rw [List.map_map] at hkey
            obtain ⟨k, -, hk⟩ := List.mem_map.mp hkey
            exact Or.inl ⟨k, hk.symm⟩
        · rw [List.map_map] at hkey
          obtain ⟨k, -, hk⟩ := List.mem_map.mp hkey
          exact Or.inr (Or.inl ⟨k, hk.symm⟩)
      · rcases deltaCommon_keys hdc key hkey with hk | hk
        · exact Or.inr (Or.inr (Or.inl hk))
        · exact Or.inr (Or.inr (Or.inr hk))

/-- Witness for C1: a removed key yields a `-k` marker mapping. -/
theorem spec_c1_witness :
    deltaShapeSpec (Json.obj [("a", Json.num 1)]) (Json.obj [])
      (Json.obj [("-a", Json.null)]) :=
  spec_c1 _ _ false _ (by
    rw [calculate_json_delta.eq_def]
    simp [keyList, dedupKeys, sortStr, insertSorted, deltaCommon,
      insertEntries, dictInsert, lookupJ])

/-- C2: the single line appended by the Log Store (the serialized JSON
text after neutralization, plus the newline) contains no `>` character
at all — hence no unescaped `>` — and in particular never contains the
comment-closing sequence `-->`.  This holds for every serialized text,
so for every logged JSON value, unconditionally. -/
theorem spec_c2 (s : List Char) :
    ('>' ∉ logLine s) ∧
    ¬ ∃ pre suf, logLine s = pre ++ ['-', '-', '>'] ++ suf := by
  have hgt : '>' ∉ logLine s := by
    unfold logLine neutralizeChars
    intro hmem
    rcases List.mem_append.mp hmem with hmem | hmem
    · rcases replaceList_mem _ hmem with hmem | hmem
      · revert hmem
        decide
      · exact replaceList_single_not_mem (by decide) _ hmem
    · simp at hmem
  refine ⟨hgt, ?_⟩
  rintro ⟨pre, suf, heq⟩
  apply hgt
  rw [heq]
  simp

/-- Counterexample to C3 as stated: with `prev = {"k": [1]}` and
`new = {"k": ["...", 5]}` — where `new["k"]` literally begins with the
in-band sentinel string — the delta is `{"k+": [5]}`, yet `new["k"]`
is not `prev["k"]` extended by `[5]`. -/
theorem spec_c3_counterexample :
    ¬ appendEntryClaim [("k", Json.arr [Json.num 1])]
        [("k", Json.arr [Json.str "...", Json.num 5])] := by
  intro hcl
  have heval : calculate_json_delta (Json.obj [("k", Json.arr [Json.num 1])])
      (Json.obj [("k", Json.arr [Json.str "...", Json.num 5])]) =
      some (false, Json.obj [("k" ++ "+", Json.arr [Json.num 5])]) := by
    rw [calculate_json_delta.eq_def]
    simp [keyList, dedupKeys, sortStr, insertSorted, deltaCommon, insertEntries,
      dictInsert, lookupJ, calculate_json_delta, allIdentical, jsonBeq]
  obtain ⟨pl, nl, hpl, hnl, heq⟩ := hcl false _ "k" [Json.num 5] heval (by simp)
  have hpl2 : Json.arr pl = Json.arr [Json.num 1] := by
    have : some (Json.arr [Json.num 1]) = some (Json.arr pl) := by
      rw [← hpl]
      simp [lookupJ]
    exact (Option.some.inj this).symm
  have hnl2 : Json.arr nl = Json.arr [Json.str "...", Json.num 5] := by
    have : some (Json.arr [Json.str "...", Json.num 5]) = some (Json.arr nl) := by
      rw [← hnl]
      simp [lookupJ]
    exact (Option.some.inj this).symm
  obtain rfl : pl = [Json.num 1] := Json.arr.inj hpl2
  obtain rfl : nl = [Json.str "...", Json.num 5] := Json.arr.inj hnl2
  rw [jsonEq.eq_def] at heq
  simp [jsonEqList.eq_def, jsonEq.eq_def, jsonBeq.eq_def] at heq

/-- C3 (corrected): for a key `k` present in both mappings, when the
recursive delta of `(prev[k], new[k])` is the append sentinel carrying
`items` — exactly the situation the delta records as a `k+` entry —
either both values are sequences and `new[k]` equals `prev[k] ++ items`
as Python values with no earlier element changed, or `new[k]` is itself
a sequence that literally begins with the sentinel string `"..."`
followed by exactly `items`. -/
theorem spec_c3 (p n : List (String × Json)) (k : String) (a b : Json)
    (items : List Json)
    (hp : lookupJ k p = some a) (hn : lookupJ k n = some b)
    (h : calculate_json_delta a b =
      some (false, Json.arr (Json.str "..." :: items))) :
    (∃ al bl, a = Json.arr al ∧ b = Json.arr bl ∧ al.length < bl.length ∧
      items = bl.drop al.length ∧
      jsonEq (Json.arr (al ++ items)) (Json.arr bl) = true) ∨
    b = Json.arr (Json.str "..." :: items) := by
  cases a <;> cases b <;>
    first
    | (rw [calculate_json_delta.eq_def] at h
       simp only [Option.some.injEq, Prod.mk.injEq] at h
       first
       | exact Or.inr h.2
       | exact Or.inr h.2.symm)
    | skip
  case arr.arr al bl =>
    rw [calculate_json_delta.eq_def] at h
    simp only [] at h
    split at h
    · rename_i hle
      split at h
      · exact absurd h (by simp)
      · rename_i allTrue hall
        cases allTrue with
        | false =>
          simp only [Bool.false_and, Bool.false_eq_true, if_false,
            Option.some.injEq, Prod.mk.injEq, Json.arr.injEq] at h
          first
          | exact Or.inr (by simp [h])
          | exact Or.inr (by simp [← h])
          | exact Or.inr (by simp [h.2])
          | exact Or.inr (by simp [← h.2])
        | true =>
          simp only [Bool.true_and, beq_iff_eq, decide_eq_true_eq] at h
          by_cases hleq : al.length = bl.length
          · rw [if_pos hleq] at h
            exact absurd h (by simp)
          · rw [if_neg hleq] at h
            by_cases hlt : al.length < bl.length
            · rw [if_pos hlt] at h
              simp only [Option.some.injEq, Prod.mk.injEq, Json.arr.injEq,
                List.cons.injEq, true_and] at h
              subst h
              left
              refine ⟨al, bl, rfl, rfl, hlt, rfl, ?_⟩
              rw [jsonEq.eq_def]
              simp only [Bool.and_eq_true, beq_iff_eq]
              refine ⟨?_, jsonEqList_append_drop al bl hle hall⟩
              simp only [List.length_append, List.length_drop]
              omega
            · rw [if_neg hlt] at h
              simp only [Option.some.injEq, Prod.mk.injEq, Json.arr.injEq] at h
              first
              | exact Or.inr (by simp [h])
              | exact Or.inr (by simp [← h])
              | exact Or.inr (by simp [h.2])
              | exact Or.inr (by simp [← h.2])
    · simp only [Option.some.injEq, Prod.mk.injEq, Json.arr.injEq] at h
      first
      | exact Or.inr (by simp [h])
      | exact Or.inr (by simp [← h])
      | exact Or.inr (by simp [h.2])
      | exact Or.inr (by simp [← h.2])
  case obj.obj p2 n2 =>
    rw [calculate_json_delta.eq_def] at h
    simp only [] at h
    split at h
    · exact absurd h (by simp)
    · simp at h

/-- Witness for C3 at the genuine append `prev["k"] = [1]`,
`new["k"] = [1, 2]`. -/
theorem spec_c3_witness :
    (∃ al bl, Json.arr [Json.num 1] = Json.arr al ∧
      Json.arr [Json.num 1, Json.num 2] = Json.arr bl ∧
      al.length < bl.length ∧ [Json.num 2] = bl.drop al.length ∧
      jsonEq (Json.arr (al ++ [Json.num 2])) (Json.arr bl) = true) ∨
    Json.arr [Json.num 1, Json.num 2] = Json.arr (Json.str "..." :: [Json.num 2]) :=
  spec_c3 [("k", Json.arr [Json.num 1])] [("k", Json.arr [Json.num 1, Json.num 2])]
    "k" _ _ [Json.num 2] (by simp [lookupJ]) (by simp [lookupJ])
    (by rw [calculate_json_delta.eq_def]
        simp [allIdentical, calculate_json_delta, jsonBeq])

/-- C4: for every JSON value `x`, `calculate_json_delta(x, x)` returns
identical = true together with the empty/equivalent delta: an empty
mapping when `x` is a mapping, an empty sequence when `x` is a sequence,
`x` itself otherwise. -/
theorem spec_c4 (x : Json) :
    calculate_json_delta x x = some (true, emptyEquiv x) :=
  calculate_json_delta_self x

/-- C5: for every JSON sequence `a` and every non-empty JSON sequence
`b`, `calculate_json_delta(a, a ++ b)` returns identical = false and the
append-sentinel form carrying exactly the items of `b`. -/
theorem spec_c5 (a b : List Json) (hb : b ≠ []) :
    calculate_json_delta (Json.arr a) (Json.arr (a ++ b)) =
      some (false, Json.arr (Json.str "..." :: b)) := by
  have hall := allIdentical_append_of a b (fun x _ => calculate_json_delta_self x)
  have hlen : a.length ≤ (a ++ b).length := by simp
  have hne : a.length ≠ (a ++ b).length := by
    simp only [List.length_append]
    have : 0 < b.length := List.length_pos.mpr hb
    omega
  have hlt : a.length < (a ++ b).length := by
    simp only [List.length_append]
    have : 0 < b.length := List.length_pos.mpr hb
    omega
  have hpos : 0 < b.length := List.length_pos.mpr hb
  rw [calculate_json_delta.eq_def]
  simp [hall, hlen, hne, hlt, hb, hpos, List.drop_left]

/-- Witness for C5 at `a = [1]`, `b = [2]`. -/
theorem spec_c5_witness :
    calculate_json_delta (Json.arr [Json.num 1])
        (Json.arr [Json.num 1, Json.num 2]) =
      some (false, Json.arr [Json.str "...", Json.num 2]) :=
  spec_c5 [Json.num 1] [Json.num 2] (by simp)

/-- C6: a recognized outbound-post line carrying malformed JSON is
substituted with the sentinel error object, still produces exactly one
log entry, and the sentinel becomes the snapshot used as "previous" for
the next delta computation; a recognized inbound-completion line
carrying malformed JSON is silently dropped: no log entry and no state
change. -/
theorem spec_c6 (loads : String → Option Json) (now : String)
    (s : TraceState) (hs : s.poisoned = false) :
    (∃ entry, stepLine loads now s (StderrLine.post none) =
      ({ s with prev := errSentinel }, some entry)) ∧
    stepLine loads now s (StderrLine.sse none) = (s, none) := by
  constructor
  · have hsome := calculate_json_delta_sentinel_isSome s.prev
    obtain ⟨r, hr⟩ := Option.isSome_iff_exists.mp hsome
    refine ⟨render_delta loads now r.2, ?_⟩
    unfold stepLine
    simp only [hs, Bool.false_eq_true, if_false, postJson]
    rw [hr]
  · unfold stepLine
    simp [hs]

/-- Witness for C6 from the initial classifier state. -/
theorem spec_c6_witness :
    (∃ entry, stepLine (fun _ => none) "" ⟨none, Json.null, false⟩
      (StderrLine.post none) =
      (⟨none, errSentinel, false⟩, some entry)) ∧
    stepLine (fun _ => none) "" ⟨none, Json.null, false⟩
      (StderrLine.sse none) = (⟨none, Json.null, false⟩, none) :=
  spec_c6 (fun _ => none) "" ⟨none, Json.null, false⟩ rfl

/-- C7: once an uncaught exception poisons the session, every subsequent
line is consumed but produces no log entry and no state change — the
flag is never reset, not even by a session-boundary marker — and an
exception while processing an outbound post (the delta engine raising)
is what sets the flag. -/
theorem spec_c7 (loads : String → Option Json) (now : String)
    (s : TraceState) (l : StderrLine) (ls : List StderrLine)
    (parsed : Option (List (String × Json))) :
    (s.poisoned = true → stepLine loads now s l = (s, none)) ∧
    (s.poisoned = true → runLines loads now s ls = (s, [])) ∧
    (s.poisoned = false →
      calculate_json_delta s.prev (postJson parsed) = none →
      stepLine loads now s (StderrLine.post parsed) =
        ({ s with poisoned := true }, none)) := by
  refine ⟨?_, ?_, ?_⟩
  · intro hp
    unfold stepLine
    simp [hp]
  · intro hp
    induction ls with
    | nil => rw [runLines]
    | cons l2 ls2 ih =>
      rw [runLines]
      have hstep : stepLine loads now s l2 = (s, none) := by
        unfold stepLine
        simp [hp]
      rw [hstep, ih]
      rfl
  · intro hp hdelta
    unfold stepLine
    simp only [hp, Bool.false_eq_true, if_false]
    rw [hdelta]

/-- Witness for C7: a poisoned state ignores a boundary marker and a
whole remaining stream, and the `IndexError` input poisons a fresh
state. -/
theorem spec_c7_witness :
    stepLine (fun _ => none) "" ⟨none, Json.null, true⟩ StderrLine.configuring =
      (⟨none, Json.null, true⟩, none) ∧
    runLines (fun _ => none) "" ⟨none, Json.null, true⟩
      [StderrLine.configuring, StderrLine.post none] =
      (⟨none, Json.null, true⟩, []) ∧
    stepLine (fun _ => none) ""
      ⟨none, Json.obj [("k", Json.arr [Json.num 1])], false⟩
      (StderrLine.post (some [("k", Json.arr [])])) =
      (⟨none, Json.obj [("k", Json.arr [Json.num 1])], true⟩, none) :=
  ⟨(spec_c7 (fun _ => none) "" _ StderrLine.configuring [] none).1 rfl,
   (spec_c7 (fun _ => none) "" _ StderrLine.configuring
     [StderrLine.configuring, StderrLine.post none] none).2.1 rfl,
   (spec_c7 (fun _ => none) "" _ StderrLine.configuring []
     (some [("k", Json.arr [])])).2.2 rfl
     (by rw [calculate_json_delta.eq_def]
         simp [postJson, keyList, dedupKeys, sortStr, insertSorted, deltaCommon,
           insertEntries, dictInsert, lookupJ, calculate_json_delta, allIdentical])⟩

/-- C8: within one session, the first recognized user-submission line
assigns the session's label (the empty label is allowed), and every
later submission line leaves the already-assigned label unchanged. -/
theorem spec_c8 (loads : String → Option Json) (now : String)
    (s : TraceState) (q : Option String) (hs : s.poisoned = false) :
    (s.prompt = none →
      (stepLine loads now s (StderrLine.submission q)).1.prompt =
        some (promptAssign q)) ∧
    (∀ x, s.prompt = some x →
      (stepLine loads now s (StderrLine.submission q)).1.prompt = some x) := by
  constructor
  · intro hnone
    unfold stepLine
    simp [hs, hnone]
  · intro x hx
    unfold stepLine
    simp [hs, hx]

/-- Witness for C8: assignment on the first submission, stability on a
later one. -/
theorem spec_c8_witness :
    (stepLine (fun _ => none) "" ⟨none, Json.null, false⟩
      (StderrLine.submission none)).1.prompt = some (promptAssign none) ∧
    (stepLine (fun _ => none) "" ⟨some " - first", Json.null, false⟩
      (StderrLine.submission (some "second prompt"))).1.prompt =
      some " - first" :=
  ⟨(spec_c8 (fun _ => none) "" ⟨none, Json.null, false⟩ none rfl).1 rfl,
   (spec_c8 (fun _ => none) "" ⟨some " - first", Json.null, false⟩
     (some "second prompt") rfl).2 " - first" rfl⟩

/-- C9: the normalizer entry points are total and defensive: whenever
the body of `render_delta` or `render_response` raises (modelled as the
body evaluating to `none`), the input value is returned unmodified; and
`render_delta` passes its input through unchanged whenever the input is
not a mapping containing at least one of the top-level keys
`instructions`, `tools`, `input`, `input+`. -/
theorem spec_c9 (loads : String → Option Json) (now : String) (j r : Json)
    (d : List (String × Json)) :
    ((match j with
      | Json.obj l =>
        (lookupJ "instructions" l).isNone = true ∧
        (lookupJ "tools" l).isNone = true ∧
        (lookupJ "input" l).isNone = true ∧
        (lookupJ "input+" l).isNone = true
      | _ => True) → render_delta loads now j = j) ∧
    (render_delta_body loads now d = none →
      render_delta loads now (Json.obj d) = Json.obj d) ∧
    (render_response_body loads now r = none →
      render_response loads now r = r) := by
  refine ⟨?_, ?_, ?_⟩
  · intro hj
    cases j with
    | obj l =>
      obtain ⟨h1, h2, h3, h4⟩ := hj
      simp [render_delta, h1, h2, h3, h4]
    | null => rfl
    | bool b => rfl
    | num n => rfl
    | str ss => rfl
    | arr l => rfl
  · intro hb
    unfold render_delta
    by_cases hcond : ((lookupJ "instructions" d).isNone &&
        (lookupJ "tools" d).isNone && (lookupJ "input" d).isNone &&
        (lookupJ "input+" d).isNone) = true
    · simp [hcond]
    · simp only [Bool.not_eq_true] at hcond
      simp [hcond, hb]
  · intro hb
    unfold render_response
    rw [hb]
    rfl

/-- Witness for C9: an irrelevant scalar passes through, a dict whose
`instructions` value is not a string makes the body raise and fall back,
and a scalar response falls back. -/
theorem spec_c9_witness :
    render_delta (fun _ => none) "" (Json.num 7) = Json.num 7 ∧
    render_delta (fun _ => none) "" (Json.obj [("instructions", Json.num 0)]) =
      Json.obj [("instructions", Json.num 0)] ∧
    render_response (fun _ => none) "" (Json.num 3) = Json.num 3 :=
  ⟨(spec_c9 (fun _ => none) "" (Json.num 7) (Json.num 3) []).1 trivial,
   (spec_c9 (fun _ => none) "" (Json.num 7) (Json.num 3)
     [("instructions", Json.num 0)]).2.1 rfl,
   (spec_c9 (fun _ => none) "" (Json.num 7) (Json.num 3) []).2.2 rfl⟩

/-- C10 (code bug): `calculate_json_delta` raises `IndexError` when a
common mapping key maps to a longer sequence in `prev` and an empty
sequence in `new`: the recursive list delta is `(False, [])` and
`subdelta[0]` subscripts an empty list.  Modelled result: `none`. -/
theorem spec_c10 :
    calculate_json_delta (Json.obj [("k", Json.arr [Json.num 1])])
      (Json.obj [("k", Json.arr [])]) = none := by
  rw [calculate_json_delta.eq_def]
  simp [keyList, sortStr, insertSorted, deltaCommon, lookupJ,
    calculate_json_delta, allIdentical]
